import Mathlib

/-!
Shallow embedding of the simplegit core (src/src-tauri/src/git_commands.rs and
src/src-tauri/src/github_auth.rs) and proofs about the behaviour of its
operations.

The native libgit2 engine (the `git2` crate) is treated as a black box with a
documented object model: we model the repository state it maintains (commits,
branches, HEAD, index, working directory) explicitly, and each wrapper method
of `GitRepo` / `GitHubAuth` is translated statement by statement into a pure
state-passing function.  Engine-internal computations that the wrapper only
forwards (revision-spec resolution, the index transformation performed by a
native revert) are taken as explicit function parameters, so every theorem
quantifies over the engine's possible answers.

Conventions:
* commit object ids are natural numbers; a fresh oid is computed
  deterministically as one past the maximum existing oid;
* the commit list of a repository is newest-first, each commit's parents
  occurring later in the list (the well-formedness predicate `Repo.WF`);
* Rust strings are Lean `String`s; byte-level operations (`&s[..7]`) and
  `str::lines` are modelled on `String.data` with explicit UTF-8 byte sizes;
* fallible Rust functions returning `Result<_, GitError>` become
  `Except GitErr _`; `revert_commit`, which can also panic on a bad slice,
  returns the three-valued `RResult`.
-/

namespace SimpleGit

/-- Decidable equality for `Except`, so that concrete runs of the fallible
operations can be checked by `decide`. -/
instance {ε α : Type} [DecidableEq ε] [DecidableEq α] : DecidableEq (Except ε α) := fun x y =>
  match x, y with
  | .ok a, .ok b =>
    if h : a = b then isTrue (by rw [h]) else isFalse (fun hx => h (Except.ok.inj hx))
  | .error a, .error b =>
    if h : a = b then isTrue (by rw [h]) else isFalse (fun hx => h (Except.error.inj hx))
  | .ok _, .error _ => isFalse (fun hx => Except.noConfusion hx)
  | .error _, .ok _ => isFalse (fun hx => Except.noConfusion hx)

/-- Mirror of `GitError` in git_commands.rs: `Git(git2::Error)`,
`Io(std::io::Error)` and `Custom(String)`; the payloads of the first two are
collapsed to their display message. -/
inductive GitErr where
  | git (msg : String)
  | ioErr (msg : String)
  | custom (msg : String)
deriving DecidableEq, Repr

/-- Data of one commit object in the engine's object store: parent oids,
message, and the author/committer e-mail used by `get_stats`. -/
structure CommitData where
  parents : List Nat
  message : String
  email : String
deriving DecidableEq, Repr

/-- State of the HEAD reference: either a symbolic reference to a branch
(`refs/heads/<name>`, stored here by its short name) or detached at a commit. -/
inductive Head where
  | branch (name : String)
  | detached (oid : Nat)
deriving DecidableEq, Repr

/-- Association-list lookup with decidable key equality (first match wins),
modelling map lookups of the engine (branch table, object store, index). -/
def lookupKey {α β : Type} [DecidableEq α] : List (α × β) → α → Option β
  | [], _ => none
  | (k, v) :: rest, a => if k = a then some v else lookupKey rest a

/-- Repository state as maintained by the native engine behind one `GitRepo`
handle: the object store (newest commit first), the local branch table, HEAD,
the index and the working tree (both path ↦ blob content), and the configured
signature e-mail. -/
structure Repo where
  commits : List (Nat × CommitData)
  branches : List (String × Nat)
  head : Head
  index : List (String × String)
  workdir : List (String × String)
  sigEmail : String
deriving DecidableEq, Repr

/-- Mirror of `RepositoryStats` in git_commands.rs. -/
structure RepositoryStats where
  commits : Nat
  branches : Nat
  contributors : Nat
deriving DecidableEq, Repr

/-- Mirror of `DiffHunk` in git_commands.rs (`u32` fields become `Nat`). -/
structure DiffHunk where
  old_start : Nat
  new_start : Nat
  old_lines : Nat
  new_lines : Nat
  content : String
  line_type : String
deriving DecidableEq, Repr

/-- Mirror of `DiffEntry` in git_commands.rs. -/
structure DiffEntry where
  old_path : Option String
  new_path : Option String
  status : String
  hunks : List DiffHunk
deriving DecidableEq, Repr

/-- Oid the HEAD reference currently resolves to: the branch target for a
symbolic HEAD (none when the branch is unborn, in which case
`Repository::head()` fails), or the pinned oid when detached. -/
def resolveHead (r : Repo) : Option Nat :=
  match r.head with
  | .branch n => lookupKey r.branches n
  | .detached o => some o

/-- Embedding of `GitRepo::get_current_branch` (git_commands.rs lines
542-547): `self.repo.head()?.shorthand()`.  `Repository::head()` resolves the
symbolic HEAD to the branch reference `refs/heads/<name>` (failing when the
branch is unborn); with HEAD detached it returns the direct reference named
`HEAD` itself.  `Reference::shorthand()` returns the short name and is `None`
only for names that are not valid UTF-8 — which cannot happen for `HEAD` or
for our modelled branch names — so the `Custom("Not on a branch")` error of
the source is unreachable in this model. -/
def get_current_branch (r : Repo) : Except GitErr String :=
  match r.head with
  | .branch n =>
    match lookupKey r.branches n with
    | some _ => .ok n
    | none => .error (.git "reference not found")
  | .detached _ => .ok "HEAD"

/-- Deterministic fresh object id: one past the largest oid in the store. -/
def freshOid (cs : List (Nat × CommitData)) : Nat :=
  (cs.map Prod.fst).foldr (fun a b => max (a + 1) b) 0

/-- Replace the target of branch `n` by `v` (the effect of
`Repository::commit(Some("HEAD"), ..)` on the branch HEAD points to). -/
def setBranch : List (String × Nat) → String → Nat → List (String × Nat)
  | [], _, _ => []
  | (k, x) :: rest, n, v =>
    (if k = n then (n, v) else (k, x)) :: setBranch rest n v

/-- Move the reference HEAD designates onto commit `o`: advance the current
branch when HEAD is symbolic, or repoint the detached HEAD. -/
def advanceHead (r : Repo) (o : Nat) : Repo :=
  match r.head with
  | .branch n => { r with branches := setBranch r.branches n o }
  | .detached _ => { r with head := .detached o }

/-- Embedding of `GitRepo::commit_changes` (git_commands.rs lines 438-456):
write the index as a tree, look up the signature, peel HEAD to the parent
commit, then create a commit with exactly that one parent and update the
reference HEAD points to. -/
def commit_changes (r : Repo) (message : String) : Except GitErr Repo :=
  match resolveHead r with
  | none => .error (.git "reference not found")
  | some p =>
    match lookupKey r.commits p with
    | none => .error (.git "peel_to_commit failed")
    | some _ =>
      let newOid := freshOid r.commits
      let c : CommitData := ⟨[p], message, r.sigEmail⟩
      .ok (advanceHead { r with commits := (newOid, c) :: r.commits } newOid)

/-- Single pass of the revision walk over a newest-first commit list: an oid
is visited when it is pending (initially the walk's start, then the parents of
every visited commit).  On a well-formed list (parents strictly later) this
collects exactly the commits reachable from the start, in walk order. -/
def revwalkGo (pending : List Nat) : List (Nat × CommitData) → List CommitData
  | [] => []
  | (o, c) :: rest =>
    if o ∈ pending then c :: revwalkGo (pending ++ c.parents) rest
    else revwalkGo pending rest

/-- Embedding of `GitRepo::get_stats` (git_commands.rs lines 274-298): walk
history from HEAD counting commits and collecting distinct author e-mails,
and separately count all branches. -/
def get_stats (r : Repo) : Except GitErr RepositoryStats :=
  match resolveHead r with
  | none => .error (.git "revwalk push_head failed")
  | some h =>
    let walked := revwalkGo [h] r.commits
    .ok { commits := walked.length
        , branches := r.branches.length
        , contributors := ((walked.map (·.email)).eraseDups).length }

/-- Effect of `Index::add_all(["*"], DEFAULT, None)` on the index: every path
present in the working directory gets an entry with the working-tree content
(adding or updating), and entries for paths no longer in the working directory
are left untouched. -/
def addAll (wd idx : List (String × String)) : List (String × String) :=
  wd ++ idx.filter (fun e => (lookupKey wd e.1).isNone)

/-- Embedding of `GitRepo::stage_changes` (git_commands.rs lines 424-436):
`index.add_all(["*"], DEFAULT, None)` followed by `index.write()`. -/
def stage_changes (r : Repo) : Except GitErr Repo :=
  .ok { r with index := addAll r.workdir r.index }

/-- Check that every parent of each commit occurs strictly later in the
newest-first commit list. -/
def parentsLater : List (Nat × CommitData) → Bool
  | [] => true
  | (_, c) :: rest =>
    c.parents.all (fun p => (rest.map Prod.fst).contains p) && parentsLater rest

/-- Well-formedness of a repository state: distinct oids, every parent of a
commit stored strictly later in the (newest-first) list, and every branch
target present in the object store. -/
def Repo.WF (r : Repo) : Prop :=
  (r.commits.map Prod.fst).Nodup ∧
  parentsLater r.commits = true ∧
  ∀ e ∈ r.branches, e.2 ∈ r.commits.map Prod.fst

/-- Result of an operation that can also panic (Rust byte-slice indexing
aborts the thread instead of returning an error). -/
inductive RResult (α : Type) where
  | ok (val : α)
  | err (e : GitErr)
  | panicked
deriving DecidableEq, Repr

/-- First `n` bytes of a character list under UTF-8, as done by the Rust byte
slice `&s[..n]`: `some` of the characters whose encodings make up exactly the
first `n` bytes, or `none` exactly when the slice panics (fewer than `n` bytes
in total, or byte `n` falling inside a character's encoding). -/
def takeBytes : Nat → List Char → Option (List Char)
  | 0, _ => some []
  | _ + 1, [] => none
  | n + 1, c :: cs =>
    if c.utf8Size ≤ n + 1 then (takeBytes (n + 1 - c.utf8Size) cs).map (fun l => c :: l)
    else none

/-- Branch-creation step of `GitRepo::revert_commit` (git_commands.rs lines
230-234): slice the first 7 bytes of the `commit_hash` argument (panicking on
a bad slice), peel HEAD to a commit, and create — without force — a local
branch `revert-<slice>` at that commit. -/
def revertBranchStep (r : Repo) (commit_hash : String) : Bool → RResult Repo
  | false => .ok r
  | true =>
    match takeBytes 7 commit_hash.data with
    | none => .panicked
    | some seven =>
      match resolveHead r with
      | none => .err (.git "reference not found")
      | some ho =>
        match lookupKey r.commits ho with
        | none => .err (.git "peel_to_commit failed")
        | some _ =>
          if (lookupKey r.branches ("revert-" ++ String.mk seven)).isSome then
            .err (.git "branch already exists")
          else .ok { r with branches := ("revert-" ++ String.mk seven, ho) :: r.branches }

/-- Final phase of `GitRepo::revert_commit` after the native revert has
rewritten index and working tree (state `r2`): write the index as a tree,
peel HEAD to the parent commit, and commit with message
`Revert "<original message of cd>"` and that sole parent, advancing the
reference HEAD points to. -/
def revertFinish (cd : CommitData) (r2 : Repo) : RResult Repo :=
  match resolveHead r2 with
  | none => .err (.git "reference not found")
  | some parentOid =>
    match lookupKey r2.commits parentOid with
    | none => .err (.git "peel_to_commit failed")
    | some _ =>
      .ok (advanceHead
        { r2 with commits :=
            (freshOid r2.commits,
              ⟨[parentOid], "Revert \"" ++ cd.message ++ "\"", r2.sigEmail⟩) :: r2.commits }
        (freshOid r2.commits))

/-- Embedding of `GitRepo::revert_commit` (git_commands.rs lines 219-261).
The native engine's revision resolution (`revparse_single`) and the
index/working-tree transformation performed by `Repository::revert` are black
boxes, passed in as the parameters `revparse`, `revertIdx` and `revertWd`.
The wrapper resolves the hash, reads the commit's message, optionally creates
the `revert-` branch at HEAD, lets the engine rewrite index and working tree,
and finishes with `revertFinish`. -/
def revert_commit (revparse : String → Option Nat)
    (revertIdx revertWd : Nat → List (String × String) → List (String × String))
    (r : Repo) (commit_hash : String) (create_branch : Bool) : RResult Repo :=
  match revparse commit_hash with
  | none => .err (.git "revspec not found")
  | some oid =>
    match lookupKey r.commits oid with
    | none => .err (.git "commit not found")
    | some cd =>
      match revertBranchStep r commit_hash create_branch with
      | .panicked => .panicked
      | .err e => .err e
      | .ok r1 =>
        revertFinish cd { r1 with index := revertIdx oid r1.index
                                , workdir := revertWd oid r1.workdir }

/-- Drop one trailing carriage return, as `str::lines` does for a line that
was terminated by `\r\n`. -/
def stripCR (l : List Char) : List Char :=
  if l.getLast? = some '\r' then l.dropLast else l

/-- Accumulator worker for `rustLines`; `acc` holds the current line's
characters in reverse. -/
def rustLinesAux (acc : List Char) : List Char → List (List Char)
  | [] => if acc.isEmpty then [] else [acc.reverse]
  | c :: rest =>
    if c = '\n' then stripCR acc.reverse :: rustLinesAux [] rest
    else rustLinesAux (c :: acc) rest

/-- Semantics of Rust's `str::lines()`: split at `\n`, strip one `\r` before
each `\n`, keep a last unterminated line, and produce nothing for the empty
string. -/
def rustLines (cs : List Char) : List (List Char) :=
  rustLinesAux [] cs

/-- Synthetic hunk built by `GitRepo::view_diff` for one untracked file
(git_commands.rs lines 370-377): coordinates 0/1/0/`lines().count()`, content
every line of the file prefixed with `+` and newline-terminated, kind tag
`header`. -/
def untrackedHunk (content : String) : DiffHunk :=
  { old_start := 0
  , new_start := 1
  , old_lines := 0
  , new_lines := (rustLines content.data).length
  , content := String.mk (((rustLines content.data).map (fun l => '+' :: (l ++ ['\n']))).flatten)
  , line_type := "header" }

/-- Synthetic `DiffEntry` for one untracked file (git_commands.rs lines
379-384): status `NEW`, no old path, the file's path as new path, and the
single synthetic hunk. -/
def untrackedEntry (path content : String) : DiffEntry :=
  { old_path := none
  , new_path := some path
  , status := "NEW"
  , hunks := [untrackedHunk content] }

/-- Callback events delivered by `Diff::foreach` for the index-to-workdir
diff, in delivery order: one `file` per delta, then its hunks, then the lines
of the most recent hunk.  A line's raw content still carries its terminator;
`origin` is the line-origin character. -/
inductive DiffEvent where
  | file (old_path new_path : Option String) (status : String)
  | hunk (old_start new_start old_lines new_lines : Nat)
  | line (origin : Char) (content : String)
deriving DecidableEq, Repr

/-- Folding state of the three `view_diff` callbacks: finished entries plus
the `RefCell<Option<DiffEntry>>` holding the entry under construction. -/
structure DiffFold where
  entries : List DiffEntry
  current : Option DiffEntry
deriving DecidableEq, Repr

/-- Trailing-whitespace trim applied by the line callback (Rust
`str::trim_end`; the whitespace classes of Rust and Lean agree on ASCII). -/
def rustTrimEnd (s : String) : String :=
  String.mk ((s.data.reverse.dropWhile (fun c => c.isWhitespace)).reverse)

/-- One step of the `view_diff` callback fold (git_commands.rs lines 317-357):
a file delta flushes the current entry and opens a fresh one; a hunk header
appends an empty hunk to the current entry; a line appends its origin

character plus trimmed content plus a newline to the current entry's last
hunk.  Hunk and line events without a current entry (or hunk) are ignored,
exactly as the `if let` chains of the source do. -/
def applyEvent (st : DiffFold) : DiffEvent → DiffFold
  | .file op np status =>
    { entries := st.entries ++ st.current.toList
    , current := some { old_path := op, new_path := np, status := status, hunks := [] } }
  | .hunk os ns ol nl =>
    match st.current with
    | none => st
    | some e =>
      { st with current := some { e with
          hunks := e.hunks ++ [⟨os, ns, ol, nl, "", "header"⟩] } }
  | .line origin content =>
    match st.current with
    | none => st
    | some e =>
      match e.hunks.getLast? with
      | none => st
      | some last =>
        { st with current := some { e with
            hunks := e.hunks.dropLast ++
              [{ last with content := last.content ++ String.mk (origin :: []) ++ rustTrimEnd content ++ "\n" }] } }

/-- Tracked part of `view_diff`: fold the callback events and flush the last
open entry into the result. -/
def processEvents (events : List DiffEvent) : List DiffEntry :=
  let st := events.foldl applyEvent ⟨[], none⟩
  st.entries ++ st.current.toList

/-- Embedding of `GitRepo::view_diff` (git_commands.rs lines 307-388): the
tracked index-to-workdir diff (delivered as callback events by the engine)
followed by one synthetic entry per untracked file, in scan order; each
untracked file is given by its path and its (successfully read) content. -/
def view_diff (events : List DiffEvent) (untracked : List (String × String)) :
    Except GitErr (List DiffEntry) :=
  .ok (processEvents events ++ untracked.map (fun pc => untrackedEntry pc.1 pc.2))

/-- Outcome of the native `RepoBuilder::clone` call: success, or failure
having or not having created the destination directory first. -/
inductive CloneOutcome where
  | success
  | failure (createdDest : Bool)
deriving DecidableEq, Repr

/-- Create a directory if missing (`std::fs::create_dir_all`). -/
def insertDir (d : String) (fs : List String) : List String :=
  if d ∈ fs then fs else d :: fs

/-- Remove a directory tree if it exists (the guarded
`if path.exists() { remove_dir_all(path) }` cleanup; the ignored removal
error is modelled as removal succeeding). -/
def removeDirIfExists (d : String) (fs : List String) : List String :=
  if d ∈ fs then fs.filter (fun x => x ≠ d) else fs

/-- Embedding of `GitRepo::clone` (git_commands.rs lines 128-172) over a
filesystem modelled as the set of existing directories.  The parent directory
is created (permission bits are not modelled), the bearer token is read from
the environment — returning `Custom("GitHub token not found")` without
touching the destination when absent — and the native clone runs; on its
failure the destination directory, if it exists, is removed before the error
is returned. -/
def clone (fs : List String) (envToken : Option String) (outcome : CloneOutcome)
    (parentDir destPath : String) : Except GitErr Unit × List String :=
  match envToken with
  | none => (.error (.custom "GitHub token not found"), insertDir parentDir fs)
  | some _ =>
    match outcome with
    | .success => (.ok (), insertDir destPath (insertDir parentDir fs))
    | .failure created =>
      (.error (.git "clone failed"),
        removeDirIfExists destPath
          (if created then insertDir destPath (insertDir parentDir fs)
           else insertDir parentDir fs))

/-- Mirror of `AuthState` in github_auth.rs. -/
structure AuthState where
  access_token : Option String
deriving DecidableEq, Repr

/-- Errors of the remote-auth client, one constructor per distinct error the
modelled paths of github_auth.rs produce: `OAuth("Not authenticated")`,
`OAuth("Invalid repository name format. Expected 'owner/repo-name', got
'<name>'")`, `OAuth("GitHub API error: <text>")`, and `Http(reqwest::Error)`
carrying its display message. -/
inductive AuthErrM where
  | notAuthenticated
  | invalidNameFormat (got : String)
  | apiError (text : String)
  | httpErr (msg : String)
deriving DecidableEq, Repr

/-- Result of one HTTP request as the wrapper observes it: a transport error
(`reqwest::Error`) or a delivered response. -/
inductive HttpResult (α : Type) where
  | ok (response : α)
  | err (msg : String)
deriving DecidableEq, Repr

/-- Fields of the repository-metadata JSON object that
`get_repository_stats` inspects, each absent or present. -/
structure GhRepoJson where
  size : Option Nat
  commits_url : Option String
  branches_url : Option String
  default_branch : Option String
deriving DecidableEq, Repr

/-- Repository-metadata response: HTTP status class, error body text (read
when the status is not a success), and the parsed JSON. -/
structure RepoApiResponse where
  statusSuccess : Bool
  errorText : String
  json : GhRepoJson
deriving DecidableEq, Repr

/-- Contributors response: only its optional `Link` header is inspected. -/
structure ContribResponse where
  linkHeader : Option String
deriving DecidableEq, Repr

/-- Character-list membership test (Rust `str::contains(char)`). -/
def strContainsChar (s : String) (c : Char) : Bool :=
  s.data.contains c

/-- Test whether `needle` is a prefix of the second list. -/
def isPrefixList : List Char → List Char → Bool
  | [], _ => true
  | _ :: _, [] => false
  | a :: as, b :: bs => a = b && isPrefixList as bs

/-- Worker for `splitOnList`; `acc` holds the current segment reversed.  The
fuel argument makes the recursion structural (so that it computes inside the
kernel); every step consumes at least one character, so fuel equal to the
input length never runs out and the zero-fuel fallback is unreachable. -/
def splitOnListAux (sep : List Char) : Nat → List Char → List Char → List (List Char)
  | _, acc, [] => [acc.reverse]
  | 0, acc, l => [acc.reverse ++ l]
  | fuel + 1, acc, c :: rest =>
    if isPrefixList sep (c :: rest) && !sep.isEmpty then
      acc.reverse :: splitOnListAux sep fuel [] (rest.drop (sep.length - 1))
    else splitOnListAux sep fuel (c :: acc) rest

/-- Semantics of Rust's `str::split(sep)` for a non-empty separator:
segments between non-overlapping occurrences of `sep`, leftmost first. -/
def splitOnList (sep : List Char) (l : List Char) : List (List Char) :=
  splitOnListAux sep l.length [] l

/-- Substring test (Rust `str::contains(&str)`). -/
def containsSubList (needle : List Char) : List Char → Bool
  | [] => needle.isEmpty
  | c :: rest => isPrefixList needle (c :: rest) || containsSubList needle rest

/-- Semantics of Rust's `str::parse::<usize>()` on the inputs that occur
here: all-digit non-empty strings parse to their decimal value, everything
else fails (a redundant leading `+`, which Rust would also accept, is not
modelled). -/
def parseUsize (l : List Char) : Option Nat :=
  match l with
  | [] => none
  | _ =>
    if l.all (fun c => c.isDigit) then
      some (l.foldl (fun n c => n * 10 + (c.toNat - 48)) 0)
    else none

/-- Contributor count derived from the contributors response's `Link` header
(github_auth.rs lines 307-320): 0 with no header, 1 with a header but no
`rel="last"` part, else the page number extracted after `&page=` and before
`>` (0 when absent or unparsable). -/
def parseContribCount (linkHeader : Option String) : Nat :=
  match linkHeader with
  | none => 0
  | some link =>
    match (splitOnList [','] link.data).find? (fun l => containsSubList ("rel=\"last\"".data) l) with
    | none => 1
    | some lastPage =>
      match (splitOnList ("&page=".data) lastPage).get? 1 with
      | none => 0
      | some pageNum =>
        (parseUsize ((splitOnList ['>'] pageNum).headD ('0' :: []))).getD 0

/-- Embedding of `GitHubAuth::get_repository_stats` (github_auth.rs lines
257-332): require a stored token, reject names without a `/`, fetch the
repository metadata (propagating transport errors and non-success statuses),
fetch the contributors page, and heuristically derive the stats: commits from
the `size` field when `default_branch` and `commits_url` are string fields,
branches 1 exactly when `branches_url` is a string field, contributors from
the `Link` header. -/
def get_repository_stats (st : AuthState) (name : String)
    (repoResp : HttpResult RepoApiResponse) (contribResp : HttpResult ContribResponse) :
    Except AuthErrM RepositoryStats :=
  match st.access_token with
  | none => .error .notAuthenticated
  | some _ =>
    if !(strContainsChar name '/') then .error (.invalidNameFormat name)
    else
      match repoResp with
      | .err m => .error (.httpErr m)
      | .ok resp =>
        if !resp.statusSuccess then .error (.apiError resp.errorText)
        else
          match contribResp with
          | .err m => .error (.httpErr m)
          | .ok cr =>
            .ok { commits :=
                    match resp.json.default_branch, resp.json.commits_url with
                    | some _, some _ => resp.json.size.getD 0
                    | _, _ => 0
                , branches := if resp.json.branches_url.isSome then 1 else 0
                , contributors := parseContribCount cr.linkHeader }

/-- Embedding of `GitHubAuth::validate_token` (github_auth.rs lines 334-350):
store the candidate token as the current access token, then probe
`GET /user`; the probe's status (or transport failure) is returned while the
stored token is left as the candidate in every outcome. -/
def validate_token (_st : AuthState) (token : String) (probe : HttpResult Bool) :
    Except AuthErrM Bool × AuthState :=
  let st1 : AuthState := { access_token := some token }
  match probe with
  | .ok statusSuccess => (.ok statusSuccess, st1)
  | .err m => (.error (.httpErr m), st1)

/-- Shape predicate written from the claim's words, for comparison with the
source's validation: `fullName` consists of exactly one non-empty owner
segment, one slash, and one non-empty name segment. -/
def ownerNameShape (s : String) : Bool :=
  match splitOnList ('/' :: []) s.data with
  | [o, n] => !o.isEmpty && !n.isEmpty
  | _ => false

/-- Small concrete repository used to evaluate the operations: one root
commit with oid 1, branch `main` at it, HEAD on `main`, one staged file and
a two-file working tree. -/
def sampleRepo : Repo :=
  { commits := [(1, ⟨[], "init", "a@x"⟩)]
  , branches := [("main", 1)]
  , head := .branch "main"
  , index := [("f.txt", "old")]
  , workdir := [("f.txt", "new"), ("g.txt", "2")]
  , sigEmail := "a@x" }

/-- Engine resolver answering oid 1 for the 7-character hash `1111111`. -/
def sampleResolve : String → Option Nat :=
  fun s => if s = "1111111" then some 1 else none

/-- Engine resolver answering oid 1 for the abbreviated 4-character hash
`abcd` (revision resolution accepts unique short prefixes). -/
def shortResolve : String → Option Nat :=
  fun s => if s = "abcd" then some 1 else none

/-- `sampleRepo` with a branch named `revert-1111111` already present. -/
def clashRepo : Repo :=
  { sampleRepo with branches := [("main", 1), ("revert-1111111", 1)] }

/-- `sampleRepo` with HEAD detached at commit 1. -/
def detachedRepo : Repo :=
  { sampleRepo with head := .detached 1 }

/-- `sampleRepo` after `commit_changes _ "m"`. -/
def sampleCommitted : Repo :=
  { sampleRepo with
      commits := [(2, ⟨[1], "m", "a@x"⟩), (1, ⟨[], "init", "a@x"⟩)]
    , branches := [("main", 2)] }

/-- `sampleRepo` after `revert_commit _ _ _ _ "1111111" true` with identity
engine revert actions. -/
def sampleReverted : Repo :=
  { sampleRepo with
      commits := [(2, ⟨[1], "Revert \"init\"", "a@x"⟩), (1, ⟨[], "init", "a@x"⟩)]
    , branches := [("revert-1111111", 1), ("main", 2)] }

/-- `sampleRepo` after `stage_changes`. -/
def sampleStaged : Repo :=
  { sampleRepo with index := [("f.txt", "new"), ("g.txt", "2")] }

/-- Successful repository-metadata response used to evaluate
`get_repository_stats`. -/
def okRepoResponse : HttpResult RepoApiResponse :=
  .ok ⟨true, "", ⟨some 5, some "cu", some "bu", some "main"⟩⟩

/-- Contributors response without a `Link` header. -/
def okContribResponse : HttpResult ContribResponse :=
  .ok ⟨none⟩

/-! Helper lemmas. -/

theorem lookupKey_isSome_of_mem {α β : Type} [DecidableEq α]
    (l : List (α × β)) (e : α × β) (he : e ∈ l) : (lookupKey l e.1).isSome = true := by
  induction l with
  | nil => cases he
  | cons kv rest ih =>
    obtain ⟨k, v⟩ := kv
    unfold lookupKey
    by_cases hk : k = e.1
    · simp [hk]
    · simp only [hk, if_false]
      rcases List.mem_cons.mp he with h | h
      · exact absurd (congrArg Prod.fst h.symm) hk
      · exact ih h

theorem addAll_idem (wd idx : List (String × String)) :
    addAll wd (addAll wd idx) = addAll wd idx := by
  unfold addAll
  rw [List.filter_append]
  have h1 : wd.filter (fun e => (lookupKey wd e.1).isNone) = [] := by
    rw [List.filter_eq_nil_iff]
    intro e he
    simp only [Option.isNone_iff_eq_none]
    intro hnone
    have := lookupKey_isSome_of_mem wd e he
    rw [hnone] at this
    cases this
  rw [h1, List.nil_append, List.filter_filter]
  simp only [Bool.and_self]

theorem foldr_max_lt (l : List Nat) :
    ∀ x ∈ l, x < l.foldr (fun a b => max (a + 1) b) 0 := by
  induction l with
  | nil => intro x hx; cases hx
  | cons a rest ih =>
    intro x hx
    rcases List.mem_cons.mp hx with h | h
    · subst h
      simp only [List.foldr_cons]
      omega
    · have := ih x h
      simp only [List.foldr_cons]
      omega

theorem freshOid_lt (cs : List (Nat × CommitData)) :
    ∀ o ∈ cs.map Prod.fst, o < freshOid cs :=
  foldr_max_lt (cs.map Prod.fst)

theorem revwalkGo_congr (cs : List (Nat × CommitData)) (p₁ p₂ : List Nat)
    (h : ∀ o ∈ cs.map Prod.fst, (o ∈ p₁ ↔ o ∈ p₂)) :
    revwalkGo p₁ cs = revwalkGo p₂ cs := by
  induction cs generalizing p₁ p₂ with
  | nil => rfl
  | cons oc rest ih =>
    obtain ⟨o, c⟩ := oc
    have ho : o ∈ p₁ ↔ o ∈ p₂ := h o (by simp)
    have hrest : ∀ o' ∈ rest.map Prod.fst, (o' ∈ p₁ ↔ o' ∈ p₂) := by
      intro o' ho'
      exact h o' (by simp [ho'])
    unfold revwalkGo
    by_cases h1 : o ∈ p₁
    · have h2 : o ∈ p₂ := ho.mp h1
      simp only [h1, h2, if_true]
      congr 1
      apply ih
      intro o' ho'
      simp only [List.mem_append]
      have := hrest o' ho'
      tauto
    · have h2 : o ∉ p₂ := fun hx => h1 (ho.mpr hx)
      simp only [h1, h2, if_false]
      exact ih _ _ hrest

theorem lookupKey_setBranch_self (bs : List (String × Nat)) (n : String) (v : Nat)
    (h : (lookupKey bs n).isSome = true) :
    lookupKey (setBranch bs n v) n = some v := by
  induction bs with
  | nil => simp [lookupKey] at h
  | cons kv rest ih =>
    obtain ⟨k, x⟩ := kv
    have hstep : setBranch ((k, x) :: rest) n v
        = (if k = n then (n, v) else (k, x)) :: setBranch rest n v := rfl
    rw [hstep]
    by_cases hk : k = n
    · rw [if_pos hk]
      simp [lookupKey]
    · rw [if_neg hk]
      have h2 : (lookupKey rest n).isSome = true := by
        have heq : lookupKey ((k, x) :: rest) n = lookupKey rest n := by
          simp [lookupKey, hk]
        rwa [heq] at h
      simp [lookupKey, hk, ih h2]

theorem setBranch_map_fst (bs : List (String × Nat)) (n : String) (v : Nat) :
    (setBranch bs n v).map Prod.fst = bs.map Prod.fst := by
  induction bs with
  | nil => rfl
  | cons kv rest ih =>
    obtain ⟨k, x⟩ := kv
    by_cases hk : k = n <;> simp [setBranch, hk, ih]

theorem takeBytes_isSome_of_ascii (cs : List Char) :
    ∀ n : Nat, (∀ c ∈ cs, c.utf8Size = 1) → n ≤ cs.length →
      (takeBytes n cs).isSome = true := by
  induction cs with
  | nil =>
    intro n _ hn
    have h0 : n = 0 := Nat.le_zero.mp hn
    subst h0
    simp [takeBytes]
  | cons c rest ih =>
    intro n hascii hn
    match n with
    | 0 => simp [takeBytes]
    | m + 1 =>
      have hc : c.utf8Size = 1 := hascii c (by simp)
      unfold takeBytes
      have hle : c.utf8Size ≤ m + 1 := by omega
      have hm : m + 1 - c.utf8Size = m := by omega
      simp only [hle, if_true, hm]
      have hrec := ih m (fun x hx => hascii x (by simp [hx])) (by simpa using hn)
      cases htb : takeBytes m rest with
      | none => rw [htb] at hrec; cases hrec
      | some l => simp [htb]

theorem rustLinesAux_terminated (u : List Char) :
    ∀ (acc rest : List Char), '\n' ∉ u →
      rustLinesAux acc (u ++ '\n' :: rest)
        = stripCR (acc.reverse ++ u) :: rustLinesAux [] rest := by
  induction u with
  | nil =>
    intro acc rest _
    simp [rustLinesAux]
  | cons c u' ih =>
    intro acc rest hu
    have hc : ¬(c = '\n') := fun hx => hu (by simp [hx])
    rw [List.cons_append]
    rw [show rustLinesAux acc (c :: (u' ++ '\n' :: rest))
        = if c = '\n' then stripCR acc.reverse :: rustLinesAux [] (u' ++ '\n' :: rest)
          else rustLinesAux (c :: acc) (u' ++ '\n' :: rest) from rfl]
    rw [if_neg hc]
    rw [ih (c :: acc) rest (fun hx => hu (by simp [hx]))]
    congr 2
    simp

theorem rustLines_plusJoin (L : List (List Char)) (h : ∀ u ∈ L, '\n' ∉ u) :
    rustLines ((L.map (fun u => '+' :: (u ++ ['\n']))).flatten)
      = L.map (fun u => stripCR ('+' :: u)) := by
  induction L with
  | nil => rfl
  | cons u L' ih =>
    have hu : '\n' ∉ u := h u (by simp)
    have hplus : '\n' ∉ ('+' :: u) := by
      intro hx
      rcases List.mem_cons.mp hx with h1 | h1
      · exact absurd h1 (by decide)
      · exact hu h1
    simp only [List.map_cons, List.flatten_cons]
    have hshape : ('+' :: (u ++ ['\n'])) ++ (L'.map (fun v => '+' :: (v ++ ['\n']))).flatten
        = ('+' :: u) ++ '\n' :: (L'.map (fun v => '+' :: (v ++ ['\n']))).flatten := by
      simp
    rw [rustLines, hshape, rustLinesAux_terminated _ _ _ hplus]
    simp only [List.reverse_nil, List.nil_append]
    rw [← rustLines, ih (fun v hv => h v (by simp [hv]))]

theorem stripCR_plus_head (u : List Char) : (stripCR ('+' :: u)).head? = some '+' := by
  cases u with
  | nil => decide
  | cons a u' =>
    unfold stripCR
    split
    · rw [show ('+' :: a :: u').dropLast = '+' :: (a :: u').dropLast from rfl]
      rfl
    · rfl

theorem stripCR_subset (l : List Char) : ∀ x ∈ stripCR l, x ∈ l := by
  intro x hx
  unfold stripCR at hx
  split at hx
  · exact (List.dropLast_prefix l).subset hx
  · exact hx

theorem rustLinesAux_no_newline (cs : List Char) :
    ∀ acc, '\n' ∉ acc → ∀ u ∈ rustLinesAux acc cs, '\n' ∉ u := by
  induction cs with
  | nil =>
    intro acc hacc u hu
    unfold rustLinesAux at hu
    split at hu
    · cases hu
    · have : u = acc.reverse := List.mem_singleton.mp hu
      subst this
      simpa [List.mem_reverse] using hacc
  | cons c rest ih =>
    intro acc hacc u hu
    rw [show rustLinesAux acc (c :: rest)
        = if c = '\n' then stripCR acc.reverse :: rustLinesAux [] rest
          else rustLinesAux (c :: acc) rest from rfl] at hu
    by_cases hc : c = '\n'
    · rw [if_pos hc] at hu
      rcases List.mem_cons.mp hu with h1 | h1
      · subst h1
        intro hx
        have := stripCR_subset acc.reverse _ hx
        rw [List.mem_reverse] at this
        exact hacc this
      · exact ih [] (by simp) u h1
    · rw [if_neg hc] at hu
      refine ih (c :: acc) ?_ u hu
      intro hx
      rcases List.mem_cons.mp hx with h1 | h1
      · exact hc h1.symm
      · exact hacc h1

theorem rustLines_no_newline (cs : List Char) : ∀ u ∈ rustLines cs, '\n' ∉ u :=
  rustLinesAux_no_newline cs [] (by simp)

/-! Claim theorems. -/

/-- C10: `validate_token` stores the candidate token as the current access
token before the probe and leaves it stored whatever the probe's outcome —
including a `false` verdict and a transport failure — overwriting whatever
token was stored before. -/
theorem validate_token_stores_token (st : AuthState) (t : String) (probe : HttpResult Bool) :
    (validate_token st t probe).2 = { access_token := some t } := by
  cases probe <;> rfl

/-- C3: evaluation of the code at the failing input.  With HEAD detached at
commit 1, `Repository::head()` yields the direct reference named `HEAD`,
whose `shorthand()` is `Some("HEAD")`, so `get_current_branch` returns
`Ok("HEAD")` instead of failing with `Custom("Not on a branch")` as the
specification requires for a detached HEAD. -/
theorem get_current_branch_detached_eval :
    get_current_branch detachedRepo = .ok "HEAD" := by decide

/-- C7: staging is idempotent — when `stage_changes` turns state `r` into
`r₁`, an immediately following `stage_changes` returns `r₁` unchanged. -/
theorem stage_changes_idempotent (r r₁ : Repo) (h : stage_changes r = .ok r₁) :
    stage_changes r₁ = .ok r₁ := by
  unfold stage_changes at h ⊢
  injection h with h'
  subst h'
  simp [addAll_idem]

/-- Witness for C7 at a concrete repository. -/
theorem stage_changes_idempotent_witness :
    stage_changes sampleRepo = .ok sampleStaged ∧
    stage_changes sampleStaged = .ok sampleStaged :=
  ⟨by decide, stage_changes_idempotent sampleRepo sampleStaged (by decide)⟩

/-- C2 counterexample: with a directory already present at the destination
path and the environment token missing, `clone` returns
`Custom("GitHub token not found")` without touching the destination, so a
directory does remain at the destination path after the error — the claim's
unconditional "no directory remains" is false. -/
theorem clone_preexisting_dest_remains :
    (clone ["dest"] none (.failure false) "parent" "dest").1
      = .error (.custom "GitHub token not found") ∧
    "dest" ∈ (clone ["dest"] none (.failure false) "parent" "dest").2 := by decide

/-- C2 (amended): when no directory exists at the destination path before
the call (the destination being distinct from the parent directory the call
creates), a `clone` that returns an error leaves no directory at the
destination — it is either never created or removed by the cleanup. -/
theorem clone_error_no_dest_dir (fs : List String) (tok : Option String)
    (oc : CloneOutcome) (parentDir destPath : String) (e : GitErr)
    (hpre : destPath ∉ fs) (hne : destPath ≠ parentDir)
    (herr : (clone fs tok oc parentDir destPath).1 = .error e) :
    destPath ∉ (clone fs tok oc parentDir destPath).2 := by
  cases tok with
  | none =>
    show destPath ∉ insertDir parentDir fs
    unfold insertDir
    split
    · exact hpre
    · simp [hne, hpre]
  | some t =>
    cases oc with
    | success => simp [clone] at herr
    | failure created =>
      show destPath ∉ removeDirIfExists destPath
        (if created then insertDir destPath (insertDir parentDir fs)
         else insertDir parentDir fs)
      generalize (if created then insertDir destPath (insertDir parentDir fs)
         else insertDir parentDir fs) = fs2
      unfold removeDirIfExists
      split
      · intro hx
        rcases List.mem_filter.mp hx with ⟨-, hx2⟩
        simp at hx2
      · next hnotin => exact hnotin

/-- Witness for C2 at a concrete failing clone into a fresh destination. -/
theorem clone_error_no_dest_dir_witness :
    (clone [] (some "t") (.failure true) "parent" "dest").1 = .error (.git "clone failed") ∧
    "dest" ∉ (clone [] (some "t") (.failure true) "parent" "dest").2 :=
  ⟨by decide,
   clone_error_no_dest_dir [] (some "t") (.failure true) "parent" "dest"
     (.git "clone failed") (by decide) (by decide) (by decide)⟩

/-- C4 (amended): `get_repository_stats` returns the
invalid-repository-name-format error — independently of every network
response, hence before any request — exactly when a token is stored and the
name contains no `/` character at all; the source checks only
`contains('/')`, not the full `owner/name` shape. -/
theorem get_repository_stats_invalid_format_iff (st : AuthState) (name : String)
    (rr : HttpResult RepoApiResponse) (cr : HttpResult ContribResponse) :
    get_repository_stats st name rr cr = .error (.invalidNameFormat name)
      ↔ (st.access_token.isSome = true ∧ strContainsChar name '/' = false) := by
  obtain ⟨tok⟩ := st
  cases tok with
  | none => simp [get_repository_stats]
  | some t =>
    cases hx : strContainsChar name '/' with
    | false => simp [get_repository_stats, hx]
    | true =>
      simp only [get_repository_stats, hx, Bool.not_true, Bool.false_eq_true, and_false,
        iff_false, Option.isSome_some]
      cases rr with
      | err m => simp
      | ok resp =>
        cases hs : resp.statusSuccess with
        | false => simp [hs]
        | true =>
          cases cr with
          | err m => simp [hs]
          | ok c => simp [hs]

/-- C4 counterexample: `a/b/c` is not of the `owner/name` shape, yet with a
stored token `get_repository_stats` does not reject it — the call proceeds
to the network and here succeeds. -/
theorem get_repository_stats_slash_only_check :
    ownerNameShape "a/b/c" = false ∧
    get_repository_stats ⟨some "t"⟩ "a/b/c" okRepoResponse okContribResponse
      = .ok ⟨5, 1, 0⟩ := by decide

/-- C5: `view_diff` appends, after all tracked-diff entries, one `DiffEntry`
per untracked file with status `NEW`, no old path, the file's path as new
path, and exactly one hunk whose content is every line of the file prefixed
with `+` (each newline-terminated); the hunk's `new_lines` is the file's line
count and re-splitting the hunk content yields exactly that many lines, each
beginning with `+`. -/
theorem view_diff_untracked_entries (events : List DiffEvent)
    (untracked : List (String × String)) :
    view_diff events untracked
      = .ok (processEvents events ++ untracked.map (fun pc => untrackedEntry pc.1 pc.2)) ∧
    ∀ p c : String,
      (untrackedEntry p c).old_path = none ∧
      (untrackedEntry p c).new_path = some p ∧
      (untrackedEntry p c).status = "NEW" ∧
      (untrackedEntry p c).hunks = [untrackedHunk c] ∧
      (untrackedHunk c).new_lines = (rustLines c.data).length ∧
      (untrackedHunk c).content
        = String.mk (((rustLines c.data).map (fun l => '+' :: (l ++ ['\n']))).flatten) ∧
      rustLines (untrackedHunk c).content.data
        = (rustLines c.data).map (fun l => stripCR ('+' :: l)) ∧
      (rustLines (untrackedHunk c).content.data).length = (rustLines c.data).length ∧
      (∀ l ∈ rustLines (untrackedHunk c).content.data, l.head? = some '+') := by
  refine ⟨rfl, fun p c => ?_⟩
  have hsplit : rustLines (untrackedHunk c).content.data
      = (rustLines c.data).map (fun l => stripCR ('+' :: l)) := by
    show rustLines (((rustLines c.data).map (fun l => '+' :: (l ++ ['\n']))).flatten)
      = (rustLines c.data).map (fun l => stripCR ('+' :: l))
    exact rustLines_plusJoin _ (rustLines_no_newline c.data)
  refine ⟨rfl, rfl, rfl, rfl, rfl, rfl, hsplit, by rw [hsplit]; simp, ?_⟩
  intro l hl
  rw [hsplit] at hl
  rcases List.mem_map.mp hl with ⟨u, -, rfl⟩
  exact stripCR_plus_head u

/-- Witness for C5: the first line of the synthetic hunk for the two-line
file `l1\nl2` is `+l1`, which starts with `+`. -/
theorem view_diff_untracked_entries_witness :
    ('+' :: 'l' :: '1' :: []) ∈ rustLines (untrackedHunk "l1\nl2").content.data ∧
    ('+' :: 'l' :: '1' :: []).head? = some '+' :=
  ⟨by decide,
   ((view_diff_untracked_entries [] []).2 "foo.txt" "l1\nl2").2.2.2.2.2.2.2.2 _ (by decide)⟩

theorem revwalkGo_fresh_cons (cs : List (Nat × CommitData)) (c : CommitData) :
    revwalkGo [freshOid cs] ((freshOid cs, c) :: cs) = c :: revwalkGo c.parents cs := by
  rw [show revwalkGo [freshOid cs] ((freshOid cs, c) :: cs)
      = if freshOid cs ∈ [freshOid cs] then c :: revwalkGo ([freshOid cs] ++ c.parents) cs
        else revwalkGo [freshOid cs] cs from rfl]
  rw [if_pos (by simp)]
  congr 1
  apply revwalkGo_congr
  intro o ho
  have hne := Nat.ne_of_lt (freshOid_lt cs o ho)
  simp [hne]

/-- C6: a successful `commit_changes` creates exactly one new commit whose
sole parent is the pre-commit HEAD commit, leaves the result of
`get_current_branch` unchanged, and increases the commit count reported by
`get_stats` by exactly one. -/
theorem commit_changes_effects (r : Repo) (msg : String) (r' : Repo)
    (h : commit_changes r msg = .ok r') :
    ∃ p, resolveHead r = some p ∧
      r'.commits = (freshOid r.commits, ⟨[p], msg, r.sigEmail⟩) :: r.commits ∧
      get_current_branch r' = get_current_branch r ∧
      ∃ s s', get_stats r = .ok s ∧ get_stats r' = .ok s' ∧
        s'.commits = s.commits + 1 := by
  obtain ⟨cs, bs, hd, idx, wd, sig⟩ := r
  cases hd with
  | branch n =>
    cases hn : lookupKey bs n with
    | none => simp [commit_changes, resolveHead, hn] at h
    | some p =>
      cases hl : lookupKey cs p with
      | none => simp [commit_changes, resolveHead, hn, hl] at h
      | some cd =>
        have hr' : r' = ⟨(freshOid cs, ⟨[p], msg, sig⟩) :: cs,
            setBranch bs n (freshOid cs), .branch n, idx, wd, sig⟩ := by
          simp only [commit_changes, resolveHead, hn, hl, advanceHead,
            Except.ok.injEq] at h
          exact h.symm
        subst hr'
        have hset : lookupKey (setBranch bs n (freshOid cs)) n = some (freshOid cs) :=
          lookupKey_setBranch_self bs n (freshOid cs) (by rw [hn]; rfl)
        refine ⟨p, by simp [resolveHead, hn], rfl, ?_, ?_⟩
        · simp [get_current_branch, hn, hset]
        · refine ⟨⟨(revwalkGo [p] cs).length, bs.length,
              (((revwalkGo [p] cs).map (·.email)).eraseDups).length⟩,
            ⟨(revwalkGo [p] cs).length + 1, (setBranch bs n (freshOid cs)).length,
              ((((⟨[p], msg, sig⟩ : CommitData) :: revwalkGo [p] cs).map
                (·.email)).eraseDups).length⟩, ?_, ?_, rfl⟩
          · simp [get_stats, resolveHead, hn]
          · simp only [get_stats, resolveHead, hset]
            rw [revwalkGo_fresh_cons cs ⟨[p], msg, sig⟩]
            simp
  | detached o =>
    cases hl : lookupKey cs o with
    | none => simp [commit_changes, resolveHead, hl] at h
    | some cd =>
      have hr' : r' = ⟨(freshOid cs, ⟨[o], msg, sig⟩) :: cs,
          bs, .detached (freshOid cs), idx, wd, sig⟩ := by
        simp only [commit_changes, resolveHead, hl, advanceHead,
          Except.ok.injEq] at h
        exact h.symm
      subst hr'
      refine ⟨o, rfl, rfl, rfl, ?_⟩
      refine ⟨⟨(revwalkGo [o] cs).length, bs.length,
            (((revwalkGo [o] cs).map (·.email)).eraseDups).length⟩,
          ⟨(revwalkGo [o] cs).length + 1, bs.length,
            ((((⟨[o], msg, sig⟩ : CommitData) :: revwalkGo [o] cs).map
              (·.email)).eraseDups).length⟩, ?_, ?_, rfl⟩
      · simp [get_stats, resolveHead]
      · simp only [get_stats, resolveHead]
        rw [revwalkGo_fresh_cons cs ⟨[o], msg, sig⟩]
        simp

/-- Witness for C6 at a concrete repository and commit. -/
theorem commit_changes_effects_witness :
    commit_changes sampleRepo "m" = .ok sampleCommitted ∧
    (∃ p, resolveHead sampleRepo = some p ∧
      sampleCommitted.commits
        = (freshOid sampleRepo.commits, ⟨[p], "m", sampleRepo.sigEmail⟩) :: sampleRepo.commits ∧
      get_current_branch sampleCommitted = get_current_branch sampleRepo ∧
      ∃ s s', get_stats sampleRepo = .ok s ∧ get_stats sampleCommitted = .ok s' ∧
        s'.commits = s.commits + 1) :=
  ⟨by decide, commit_changes_effects sampleRepo "m" sampleCommitted (by decide)⟩

theorem revertFinish_ne_panicked (cd : CommitData) (r2 : Repo) :
    revertFinish cd r2 ≠ .panicked := by
  unfold revertFinish
  cases hrh : resolveHead r2 with
  | none => simp [hrh]
  | some po =>
    cases hlk : lookupKey r2.commits po with
    | none => simp [hrh, hlk]
    | some x => simp [hrh, hlk]

theorem revert_commit_not_panicked_of_branchStep
    (rp : String → Option Nat)
    (ri rwd : Nat → List (String × String) → List (String × String))
    (r : Repo) (hsh : String) (cb : Bool)
    (hb : revertBranchStep r hsh cb ≠ .panicked) :
    revert_commit rp ri rwd r hsh cb ≠ .panicked := by
  unfold revert_commit
  cases hrp : rp hsh with
  | none => simp [hrp]
  | some oid =>
    cases hlk : lookupKey r.commits oid with
    | none => simp [hrp, hlk]
    | some cd =>
      cases hbs : revertBranchStep r hsh cb with
      | panicked => exact absurd hbs hb
      | err e => simp [hrp, hlk, hbs]
      | ok r1 =>
        simpa [hrp, hlk, hbs] using revertFinish_ne_panicked cd
          { r1 with index := ri oid r1.index, workdir := rwd oid r1.workdir }

/-- C9 (amended): with `create_branch = true`, `revert_commit` slices the
first 7 bytes of the hash argument with no length or boundary check, so for
every input whose hash resolves to a stored commit but whose byte slice at 7
fails (hash shorter than 7 bytes, or byte 7 inside a character's UTF-8
encoding) the call panics instead of returning a `GitError`; and whenever
the hash consists of at least 7 one-byte (ASCII) characters the call never
panics, whatever the engine answers. -/
theorem revert_commit_slice_totality :
    (∀ (rp : String → Option Nat)
        (ri rwd : Nat → List (String × String) → List (String × String))
        (r : Repo) (hsh : String) (oid : Nat) (cd : CommitData),
      rp hsh = some oid → lookupKey r.commits oid = some cd →
      takeBytes 7 hsh.data = none →
      revert_commit rp ri rwd r hsh true = .panicked) ∧
    (∀ (rp : String → Option Nat)
        (ri rwd : Nat → List (String × String) → List (String × String))
        (r : Repo) (hsh : String) (cb : Bool),
      7 ≤ hsh.data.length → (∀ ch ∈ hsh.data, ch.utf8Size = 1) →
      revert_commit rp ri rwd r hsh cb ≠ .panicked) := by
  constructor
  · intro rp ri rwd r hsh oid cd hrp hlk htb
    have hbs : revertBranchStep r hsh true = .panicked := by
      simp only [revertBranchStep, htb]
    simp only [revert_commit, hrp, hlk, hbs]
  · intro rp ri rwd r hsh cb hlen hascii
    have hsome : (takeBytes 7 hsh.data).isSome = true :=
      takeBytes_isSome_of_ascii hsh.data 7 hascii hlen
    apply revert_commit_not_panicked_of_branchStep
    cases cb with
    | false => simp [revertBranchStep]
    | true =>
      cases htb : takeBytes 7 hsh.data with
      | none => rw [htb] at hsome; cases hsome
      | some seven =>
        cases hrh : resolveHead r with
        | none => simp [revertBranchStep, htb, hrh]
        | some ho =>
          cases hlk : lookupKey r.commits ho with
          | none => simp [revertBranchStep, htb, hrh, hlk]
          | some cdh =>
            by_cases hbe : (lookupKey r.branches ("revert-" ++ String.mk seven)).isSome = true
            · simp [revertBranchStep, htb, hrh, hlk, hbe]
            · simp [revertBranchStep, htb, hrh, hlk, hbe]

/-- C9 counterexample: the hash `abc` is shorter than 7 bytes, yet with
`create_branch = true` the call does not panic — revision resolution runs
before the slice, and an unresolvable hash makes the call return a
`GitError`, so not every sub-7-byte hash string panics. -/
theorem revert_commit_short_unresolvable_no_panic :
    "abc".data.length < 7 ∧
    revert_commit (fun _ => none) (fun _ i => i) (fun _ w => w) sampleRepo "abc" true
      = .err (.git "revspec not found") := by decide

/-- Witness for C9: a resolvable 4-byte hash panics, a 7-byte ASCII hash
never panics. -/
theorem revert_commit_slice_totality_witness :
    revert_commit shortResolve (fun _ i => i) (fun _ w => w) sampleRepo "abcd" true
      = .panicked ∧
    revert_commit sampleResolve (fun _ i => i) (fun _ w => w) sampleRepo "1111111" true
      ≠ .panicked :=
  ⟨revert_commit_slice_totality.1 shortResolve (fun _ i => i) (fun _ w => w) sampleRepo
      "abcd" 1 ⟨[], "init", "a@x"⟩ (by decide) (by decide) (by decide),
   revert_commit_slice_totality.2 sampleResolve (fun _ i => i) (fun _ w => w) sampleRepo
      "1111111" true (by decide) (by decide)⟩

/-- C1 (amended): a `revert_commit(hash, createBranch = true)` call that
returns successfully creates exactly one new branch, named `revert-` followed
by the first 7 bytes of the hash argument, pointing at the pre-revert HEAD
commit, and exactly one new commit whose message is
`Revert "<original message of the resolved commit>"` and whose sole parent is
the pre-revert HEAD commit. -/
theorem revert_commit_success_effects (rp : String → Option Nat)
    (ri rwd : Nat → List (String × String) → List (String × String))
    (r : Repo) (hsh : String) (r' : Repo)
    (hok : revert_commit rp ri rwd r hsh true = .ok r') :
    ∃ seven oid cd ho,
      takeBytes 7 hsh.data = some seven ∧
      rp hsh = some oid ∧
      lookupKey r.commits oid = some cd ∧
      resolveHead r = some ho ∧
      r'.branches.map Prod.fst
        = ("revert-" ++ String.mk seven) :: r.branches.map Prod.fst ∧
      lookupKey r'.branches ("revert-" ++ String.mk seven) = some ho ∧
      r'.commits = (freshOid r.commits,
          ⟨[ho], "Revert \"" ++ cd.message ++ "\"", r.sigEmail⟩) :: r.commits := by
  obtain ⟨cs, bs, hd, idx, wd, sig⟩ := r
  unfold revert_commit at hok
  cases hrp : rp hsh with
  | none => simp [hrp] at hok
  | some oid =>
    cases hlk : lookupKey cs oid with
    | none => simp [hrp, hlk] at hok
    | some cd =>
      cases htb : takeBytes 7 hsh.data with
      | none => simp [hrp, hlk, revertBranchStep, htb] at hok
      | some seven =>
        cases hd with
        | branch n =>
          cases hn : lookupKey bs n with
          | none => simp [hrp, hlk, revertBranchStep, htb, resolveHead, hn] at hok
          | some ho =>
            cases hlk2 : lookupKey cs ho with
            | none =>
              simp [hrp, hlk, revertBranchStep, htb, resolveHead, hn, hlk2] at hok
            | some cdh =>
              cases hbe : lookupKey bs ("revert-" ++ String.mk seven) with
              | some bv =>
                simp [hrp, hlk, revertBranchStep, htb, resolveHead, hn, hlk2, hbe] at hok
              | none =>
                have hbn : ¬("revert-" ++ String.mk seven = n) := by
                  intro he
                  rw [he, hn] at hbe
                  exact Option.noConfusion hbe
                have hr' : r' = ⟨(freshOid cs,
                      ⟨[ho], "Revert \"" ++ cd.message ++ "\"", sig⟩) :: cs,
                    ("revert-" ++ String.mk seven, ho) :: setBranch bs n (freshOid cs),
                    .branch n, ri oid idx, rwd oid wd, sig⟩ := by
                  simp only [hrp, hlk, revertBranchStep, htb, resolveHead, hn, hlk2, hbe,
                    Option.isSome_none, Bool.false_eq_true, if_false, revertFinish,
                    lookupKey, hbn, if_neg, advanceHead, setBranch,
                    RResult.ok.injEq] at hok
                  exact hok.symm
                subst hr'
                refine ⟨seven, oid, cd, ho, rfl, rfl, hlk, ?_, ?_, ?_, rfl⟩
                · simp [resolveHead, hn]
                · simp [setBranch_map_fst]
                · simp [lookupKey]
        | detached o =>
          cases hlk2 : lookupKey cs o with
          | none =>
            simp [hrp, hlk, revertBranchStep, htb, resolveHead, hlk2] at hok
          | some cdh =>
            cases hbe : lookupKey bs ("revert-" ++ String.mk seven) with
            | some bv =>
              simp [hrp, hlk, revertBranchStep, htb, resolveHead, hlk2, hbe] at hok
            | none =>
              have hr' : r' = ⟨(freshOid cs,
                    ⟨[o], "Revert \"" ++ cd.message ++ "\"", sig⟩) :: cs,
                  ("revert-" ++ String.mk seven, o) :: bs,
                  .detached (freshOid cs), ri oid idx, rwd oid wd, sig⟩ := by
                simp only [hrp, hlk, revertBranchStep, htb, resolveHead, hlk2, hbe,
                  Option.isSome_none, Bool.false_eq_true, if_false, revertFinish,
                  lookupKey, advanceHead, RResult.ok.injEq] at hok
                exact hok.symm
              subst hr'
              refine ⟨seven, oid, cd, o, rfl, rfl, hlk, rfl, by simp, ?_, rfl⟩
              simp [lookupKey]

/-- C1 counterexample: a repository whose HEAD points at a commit, with a
resolvable hash, but where a branch named `revert-1111111` already exists:
branch creation is attempted without force, so the call returns an error and
creates neither a branch nor a commit — the claim's unconditional "creates
exactly one new branch and one new commit" fails at this input. -/
theorem revert_commit_existing_branch_errors :
    resolveHead clashRepo = some 1 ∧
    sampleResolve "1111111" = some 1 ∧
    revert_commit sampleResolve (fun _ i => i) (fun _ w => w) clashRepo "1111111" true
      = .err (.git "branch already exists") := by decide

/-- Witness for C1 at a concrete successful revert. -/
theorem revert_commit_success_effects_witness :
    revert_commit sampleResolve (fun _ i => i) (fun _ w => w) sampleRepo "1111111" true
      = .ok sampleReverted ∧
    (∃ seven oid cd ho,
      takeBytes 7 "1111111".data = some seven ∧
      sampleResolve "1111111" = some oid ∧
      lookupKey sampleRepo.commits oid = some cd ∧
      resolveHead sampleRepo = some ho ∧
      sampleReverted.branches.map Prod.fst
        = ("revert-" ++ String.mk seven) :: sampleRepo.branches.map Prod.fst ∧
      lookupKey sampleReverted.branches ("revert-" ++ String.mk seven) = some ho ∧
      sampleReverted.commits = (freshOid sampleRepo.commits,
          ⟨[ho], "Revert \"" ++ cd.message ++ "\"", sampleRepo.sigEmail⟩)
        :: sampleRepo.commits) :=
  ⟨by decide,
   revert_commit_success_effects sampleResolve (fun _ i => i) (fun _ w => w)
     sampleRepo "1111111" sampleReverted (by decide)⟩

end SimpleGit
